import Mathlib

/-! Verification of `nping/nping-dev/pythonscripts/addManSectionEntry.py`,
a small interactive template-filling script.  Strings are modelled as
`List Char`; Python's `str.replace` is modelled by `replaceAll`; one full
run of the script is modelled by `run`, a pure function of the operator's
line inputs and of the template file contents (each template is a list of
lines, each line carrying its own terminator, exactly as Python's file
iteration yields them). -/

/-- Characters of the literal placeholder token `SECTION_NAME`. -/
def SECTION_NAME : List Char := "SECTION_NAME".data

/-- Characters of the literal placeholder token `SECTION_HYPHENED_NAME`. -/
def SECTION_HYPHENED_NAME : List Char := "SECTION_HYPHENED_NAME".data

/-- Characters of the literal placeholder token `OPT_FORMAT`. -/
def OPT_FORMAT : List Char := "OPT_FORMAT".data

/-- Characters of the literal placeholder token `OPT_ARG`. -/
def OPT_ARG : List Char := "OPT_ARG".data

/-- Characters of the literal placeholder token `OPT_DESC`. -/
def OPT_DESC : List Char := "OPT_DESC".data

/-- Characters of the literal placeholder token `OPT_NAME`. -/
def OPT_NAME : List Char := "OPT_NAME".data

/-- Tests whether `p` occurs at the very start of `s`. -/
def leadsWith : List Char → List Char → Bool
  | [], _ => true
  | _ :: _, [] => false
  | a :: as, b :: bs => a == b && leadsWith as bs

/-- Tests whether `pat` occurs as a contiguous substring of `s`
(Python's `pat in s`). -/
def containsSub (pat : List Char) : List Char → Bool
  | [] => decide (pat = [])
  | c :: rest => leadsWith pat (c :: rest) || containsSub pat rest

/-- Core of `replaceAll`: while the counter is positive the scanner is
inside an already matched occurrence and copies nothing; at `0` it
substitutes a leftmost occurrence and resumes after it, exactly like
Python's `str.replace` with a non-empty pattern. -/
def replACore (pat val : List Char) : Nat → List Char → List Char
  | _, [] => []
  | k + 1, _ :: rest => replACore pat val k rest
  | 0, c :: rest =>
    if leadsWith pat (c :: rest) = true ∧ pat ≠ [] then
      val ++ replACore pat val (pat.length - 1) rest
    else
      c :: replACore pat val 0 rest

/-- Model of Python's `line.replace(pat, val)`: every leftmost,
non-overlapping occurrence of `pat` is replaced by one copy of `val`.
(Every pattern the script passes is non-empty; for an empty pattern this
model is the identity.) -/
def replaceAll (pat val s : List Char) : List Char := replACore pat val 0 s

/-- Core of `splitSub`; the counter plays the same role as in
`replACore`. -/
def splitCore (pat : List Char) : Nat → List Char → List (List Char)
  | _, [] => [[]]
  | k + 1, _ :: rest => splitCore pat k rest
  | 0, c :: rest =>
    if leadsWith pat (c :: rest) = true ∧ pat ≠ [] then
      [] :: splitCore pat (pat.length - 1) rest
    else
      match splitCore pat 0 rest with
      | [] => [[c]]
      | h :: t => (c :: h) :: t

/-- Chunks of `s` lying strictly between the leftmost non-overlapping
occurrences of `pat`; interleaving them with `pat` reconstructs `s`. -/
def splitSub (pat s : List Char) : List (List Char) := splitCore pat 0 s

/-- Concatenation of the chunks with `sep` inserted between consecutive
chunks. -/
def joinWith (sep : List Char) : List (List Char) → List Char
  | [] => []
  | [x] => x
  | x :: y :: t => x ++ sep ++ joinWith sep (y :: t)

/-- First substitution pair whose token matches at the start of `s`. -/
def findTok (subs : List (List Char × List Char)) (s : List Char) :
    Option (List Char × List Char) :=
  subs.find? fun pv => leadsWith pv.1 s && decide (pv.1 ≠ [])

/-- Core of `simulSubstSpec`; the counter skips over a just-substituted
occurrence. -/
def simulCore (subs : List (List Char × List Char)) : Nat → List Char → List Char
  | _, [] => []
  | k + 1, _ :: rest => simulCore subs k rest
  | 0, c :: rest =>
    match findTok subs (c :: rest) with
    | some pv => pv.2 ++ simulCore subs (pv.1.length - 1) rest
    | none => c :: simulCore subs 0 rest

/-- Modelled from the spec: the spec's reading of rendering, in which one
left-to-right pass replaces each occurrence of each recognized token by
exactly one copy of its substitution value and copies all non-token text
unchanged.  This is the specification-side definition used to compare the
code's sequential `replace` chain against the spec's wording. -/
def simulSubstSpec (subs : List (List Char × List Char)) (s : List Char) : List Char :=
  simulCore subs 0 s

/-- Splits a character stream into its lines (separated by a newline
character), used to state what "emitted as a line" means for the output. -/
def linesOf : List Char → List (List Char)
  | [] => [[]]
  | c :: rest =>
    if c = '\n' then [] :: linesOf rest
    else
      match linesOf rest with
      | [] => [[c]]
      | h :: t => (c :: h) :: t

/-- Tests that none of the six recognized placeholder tokens occurs in
`s`. -/
def noTok (s : List Char) : Bool :=
  !containsSub SECTION_NAME s && !containsSub SECTION_HYPHENED_NAME s &&
  !containsSub OPT_FORMAT s && !containsSub OPT_ARG s &&
  !containsSub OPT_DESC s && !containsSub OPT_NAME s

/-- One operator-supplied option record: the four values appended to
`optformat`, `optarg`, `optdesc` and `optname` in iteration `i`. -/
structure OptionEntry where
  optformat : List Char
  optarg : List Char
  optdesc : List Char
  optname : List Char

deriving instance DecidableEq for OptionEntry

/-- One line of the section template after the two replacements performed
by the code, in the code's order: `SECTION_NAME` first, then
`SECTION_HYPHENED_NAME`. -/
def renderSectionLine (sectionname hyphname line : List Char) : List Char :=
  replaceAll SECTION_HYPHENED_NAME hyphname (replaceAll SECTION_NAME sectionname line)

/-- Branch of the code on `optarg[i] == ""` for the `OPT_ARG`
replacement: the empty string when the argument is empty, otherwise the
argument wrapped in `<replaceable>` markup. -/
def argSubstep (optarg line : List Char) : List Char :=
  if optarg = [] then replaceAll OPT_ARG [] line
  else replaceAll OPT_ARG ("<replaceable>".data ++ optarg ++ "</replaceable>".data) line

/-- Value the `OPT_ARG` branch substitutes for each occurrence. -/
def argValue (optarg : List Char) : List Char :=
  if optarg = [] then [] else "<replaceable>".data ++ optarg ++ "</replaceable>".data

/-- One line of the option-entry template after the four replacements
performed by the code, in the code's order: `OPT_FORMAT`, then the
`OPT_ARG` branch, then `OPT_DESC`, then `OPT_NAME`. -/
def renderEntryLine (e : OptionEntry) (line : List Char) : List Char :=
  replaceAll OPT_NAME e.optname
    (replaceAll OPT_DESC e.optdesc
      (argSubstep e.optarg
        (replaceAll OPT_FORMAT e.optformat line)))

/-- The per-line loop `for line in open(...): ...; o.write(line)`: each
template line is rendered and appended, in original order. -/
def writeLines (render : List Char → List Char) : List (List Char) → List Char
  | [] => []
  | l :: ls => render l ++ writeLines render ls

/-- Bytes appended by the section-template loop. -/
def sectionOut (sectionname hyphname : List Char) (tmpl : List (List Char)) : List Char :=
  writeLines (renderSectionLine sectionname hyphname) tmpl

/-- Bytes appended by the inner entry-template loop for one option record,
rendered from the given template contents. -/
def entryBlock (e : OptionEntry) (tmpl : List (List Char)) : List Char :=
  writeLines (renderEntryLine e) tmpl

/-- The literal string assigned to `line1` in the code. -/
def line1 : List Char := "    </variablelist>".data

/-- The literal string assigned to `line2` in the code. -/
def line2 : List Char := "   </refsect1>".data

/-- Numeric value of a decimal digit character. -/
def digitVal (c : Char) : Option Nat :=
  if '0' ≤ c ∧ c ≤ '9' then some (c.toNat - '0'.toNat) else none

/-- Value of a non-empty all-digit string. -/
def readDigits (s : List Char) : Option Nat :=
  if s = [] then none
  else
    s.foldl
      (fun acc c =>
        match acc, digitVal c with
        | some a, some d => some (10 * a + d)
        | _, _ => none)
      (some 0)

/-- Strips leading and trailing space characters. -/
def trimSpaces (s : List Char) : List Char :=
  ((s.dropWhile fun c => c == ' ').reverse.dropWhile fun c => c == ' ').reverse

/-- Model of Python's `int(text)` as the script uses it: an optionally
signed decimal numeral with optional surrounding spaces; anything else
(such as `"abc"` or `""`) raises `ValueError`, modelled as `none`. -/
def pyInt (s : List Char) : Option Int :=
  match trimSpaces s with
  | '-' :: rest => (readDigits rest).map fun n => -(n : Int)
  | '+' :: rest => (readDigits rest).map fun n => (n : Int)
  | t => (readDigits t).map fun n => (n : Int)

/-- Model of Python's `range(n)` over the parsed count: empty for every
non-positive count. -/
def pyRange (n : Int) : List Nat := List.range n.toNat

/-- All operator inputs and template file contents one run consumes.
`entries i` holds the four values typed in iteration `i`; since the code
reopens `man-section-entry-template.xml` in every iteration,
`entryTemplate i` holds that file's lines as they are when iteration `i`
reads it. -/
structure RunInput where
  sectionname : List Char
  hyphname : List Char
  sectionTemplate : List (List Char)
  my_range : List Char
  entries : Nat → OptionEntry
  entryTemplate : Nat → List (List Char)

/-- Outcome of one run: the bytes appended to `OutputMan.txt` and whether
the program itself executed `o.close()`.  `inputError` is the path where
`int(my_range)` raises; the exception propagates, so the trailing
`o.close()` line is never reached on that path. -/
inductive RunResult where
  | ok (appended : List Char) (closed : Bool)
  | inputError (appended : List Char) (closed : Bool)

deriving instance DecidableEq for RunResult

/-- The option loop `for i in range(int(my_range))`: one rendered block
per iteration, in iteration order. -/
def writeBlocks (entries : Nat → OptionEntry) (entryTemplate : Nat → List (List Char)) :
    List Nat → List Char
  | [] => []
  | i :: is => entryBlock (entries i) (entryTemplate i) ++ writeBlocks entries entryTemplate is

/-- One full run of the script, as a function of its inputs: render and
append the section template, parse the count (terminating with the
interpreter's error and without closing when it is not an integer), then
append one block per iteration followed by `line1` and `line2`, and
close. -/
def run (inp : RunInput) : RunResult :=
  match pyInt inp.my_range with
  | none =>
      RunResult.inputError (sectionOut inp.sectionname inp.hyphname inp.sectionTemplate) false
  | some n =>
      RunResult.ok
        (sectionOut inp.sectionname inp.hyphname inp.sectionTemplate ++
          writeBlocks inp.entries inp.entryTemplate (pyRange n) ++ (line1 ++ line2))
        true

/-- Bytes a run appended to the output file. -/
def appendedOf : RunResult → List Char
  | RunResult.ok a _ => a
  | RunResult.inputError a _ => a

/-- Whether the program executed `o.close()` on that run. -/
def closedOf : RunResult → Bool
  | RunResult.ok _ c => c
  | RunResult.inputError _ c => c

/-- Content of `OutputMan.txt` after a run, given its prior content: the
file is opened with mode `"a"`, so all writes land after the existing
bytes. -/
def fileAfter (prior : List Char) (inp : RunInput) : List Char :=
  prior ++ appendedOf (run inp)

/-- Option record with all four fields empty. -/
def emptyEntry : OptionEntry := ⟨[], [], [], []⟩

/-- Concrete run input for exercising the normal path with two options. -/
def inpC2 : RunInput :=
  { sectionname := "TCP Options".data
    hyphname := "tcp-options".data
    sectionTemplate := ["<title>SECTION_NAME SECTION_HYPHENED_NAME</title>\n".data]
    my_range := "2".data
    entries := fun _ =>
      ⟨"tcp-connect".data, "portnumber".data, "TCP Connect Mode".data, "tcp connect".data⟩
    entryTemplate := fun _ => ["<opt>OPT_FORMAT OPT_ARG OPT_DESC OPT_NAME</opt>\n".data] }

/-- Concrete run input whose count text is `"0"`. -/
def inpC20 : RunInput :=
  { inpC2 with my_range := "0".data }

/-- Concrete run input whose count text is the non-integer `"abc"`. -/
def inpC4 : RunInput :=
  { sectionname := "S".data
    hyphname := "H".data
    sectionTemplate := ["x SECTION_NAME y\n".data]
    my_range := "abc".data
    entries := fun _ => emptyEntry
    entryTemplate := fun _ => [] }

/-- Concrete run input that completes normally with one option. -/
def inpC5ok : RunInput :=
  { sectionname := []
    hyphname := []
    sectionTemplate := []
    my_range := "1".data
    entries := fun _ => emptyEntry
    entryTemplate := fun _ => [] }

/-- Concrete run input whose count text is the non-integer `"zz"`. -/
def inpC5err : RunInput :=
  { inpC5ok with my_range := "zz".data }

/-- Concrete run input hitting the parse-failure exit path. -/
def inpC5cex : RunInput :=
  { inpC5ok with my_range := "abc".data }

/-- Concrete run input with empty templates and count `"0"`, so that the
appended bytes are exactly the two closing strings. -/
def inpC6cex : RunInput :=
  { sectionname := []
    hyphname := []
    sectionTemplate := []
    my_range := "0".data
    entries := fun _ => emptyEntry
    entryTemplate := fun _ => [] }

/-- Concrete run input ending with one rendered option block. -/
def inpC6w : RunInput :=
  { inpC6cex with
      my_range := "1".data
      entryTemplate := fun _ => ["<o>OPT_NAME</o>\n".data] }

/-- Concrete run input whose entry template differs between iteration `0`
and iteration `1`. -/
def inpC8 : RunInput :=
  { sectionname := []
    hyphname := []
    sectionTemplate := []
    my_range := "2".data
    entries := fun _ => emptyEntry
    entryTemplate := fun i =>
      if i = 0 then ["first OPT_NAME\n".data] else ["second OPT_NAME\n".data] }

/-- Concrete run input whose count text parses to a negative integer. -/
def inpC9 : RunInput :=
  { sectionname := "S".data
    hyphname := "H".data
    sectionTemplate := ["x SECTION_NAME y\n".data]
    my_range := "-3".data
    entries := fun _ => emptyEntry
    entryTemplate := fun _ => [] }


theorem leadsWith_iff (p : List Char) : ∀ s, leadsWith p s = true ↔ ∃ t, s = p ++ t := by
  induction p with
  | nil =>
    intro s
    constructor
    · intro _; exact ⟨s, rfl⟩
    · intro _; rfl
  | cons a as ih =>
    intro s
    cases s with
    | nil =>
      constructor
      · intro h; exact absurd h (by simp [leadsWith])
      · rintro ⟨t, ht⟩; exact absurd ht (by simp)
    | cons b bs =>
      constructor
      · intro h
        have h' : (a == b) = true ∧ leadsWith as bs = true := by
          simpa [leadsWith, Bool.and_eq_true] using h
        obtain ⟨t, ht⟩ := (ih bs).mp h'.2
        refine ⟨t, ?_⟩
        have : a = b := by simpa using h'.1
        simp [this, ht]
      · rintro ⟨t, ht⟩
        have hb : b = a := by
          have := congrArg (fun l => l.head?) ht
          simpa using this
        have hbs : bs = as ++ t := by
          have := congrArg (fun l => l.tail) ht
          simpa using this
        have : leadsWith as bs = true := (ih bs).mpr ⟨t, hbs⟩
        simp [leadsWith, hb, this]

theorem drop_append_self (p t : List Char) : (p ++ t).drop p.length = t := by
  induction p with
  | nil => simp
  | cons a as ih => simp [ih]

theorem take_append_self (p t : List Char) : (p ++ t).take p.length = p := by
  induction p with
  | nil => simp
  | cons a as ih => simp [ih]

theorem containsSub_iff (pat : List Char) :
    ∀ s, containsSub pat s = true ↔ ∃ a b, s = a ++ (pat ++ b) := by
  intro s
  induction s with
  | nil =>
    constructor
    · intro h
      have : pat = [] := by simpa [containsSub] using h
      exact ⟨[], [], by simp [this]⟩
    · rintro ⟨a, b, hab⟩
      have := hab.symm
      have ha : a = [] ∧ pat ++ b = [] := by
        simpa using List.append_eq_nil.mp this
      have hp : pat = [] := (List.append_eq_nil.mp ha.2).1
      simp [containsSub, hp]
  | cons c rest ih =>
    constructor
    · intro h
      have h' : leadsWith pat (c :: rest) = true ∨ containsSub pat rest = true := by
        simpa [containsSub, Bool.or_eq_true] using h
      rcases h' with h' | h'
      · obtain ⟨t, ht⟩ := (leadsWith_iff pat (c :: rest)).mp h'
        exact ⟨[], t, by simp [ht]⟩
      · obtain ⟨a, b, hab⟩ := ih.mp h'
        exact ⟨c :: a, b, by simp [hab]⟩
    · rintro ⟨a, b, hab⟩
      cases a with
      | nil =>
        have : leadsWith pat (c :: rest) = true :=
          (leadsWith_iff pat (c :: rest)).mpr ⟨b, by simpa using hab⟩
        simp [containsSub, this]
      | cons x xs =>
        have hx : c = x := by
          have := congrArg (fun l => l.head?) hab
          simpa using this
        have hrest : rest = xs ++ (pat ++ b) := by
          have := congrArg (fun l => l.tail) hab
          simpa using this
        have : containsSub pat rest = true := ih.mpr ⟨xs, b, hrest⟩
        simp [containsSub, this]

theorem containsSub_length {pat s : List Char} (h : containsSub pat s = true) :
    pat.length ≤ s.length := by
  obtain ⟨a, b, hab⟩ := (containsSub_iff pat s).mp h
  simp [hab]
  omega

theorem replACore_nil (pat val : List Char) (k : Nat) : replACore pat val k [] = [] := by
  cases k <;> rfl

theorem replACore_succ (pat val : List Char) (c : Char) (rest : List Char) (k : Nat) :
    replACore pat val (k + 1) (c :: rest) = replACore pat val k rest := rfl

theorem replACore_zero (pat val : List Char) (c : Char) (rest : List Char) :
    replACore pat val 0 (c :: rest) =
      if leadsWith pat (c :: rest) = true ∧ pat ≠ [] then
        val ++ replACore pat val (pat.length - 1) rest
      else
        c :: replACore pat val 0 rest := rfl

theorem replACore_eq_drop (pat val : List Char) :
    ∀ (s : List Char) (k : Nat), replACore pat val k s = replaceAll pat val (s.drop k) := by
  intro s
  induction s with
  | nil => intro k; simp [replACore_nil, replaceAll]
  | cons c rest ih =>
    intro k
    cases k with
    | zero => rfl
    | succ j => rw [replACore_succ, ih j, List.drop_succ_cons]

theorem replaceAll_nil (pat val : List Char) : replaceAll pat val [] = [] := rfl

theorem replaceAll_pos {pat : List Char} (val : List Char) {c : Char} {rest : List Char}
    (hl : leadsWith pat (c :: rest) = true) (hp : pat ≠ []) :
    replaceAll pat val (c :: rest) =
      val ++ replaceAll pat val (rest.drop (pat.length - 1)) := by
  rw [replaceAll, replACore_zero, if_pos ⟨hl, hp⟩, replACore_eq_drop]

theorem replaceAll_neg {pat : List Char} (val : List Char) {c : Char} {rest : List Char}
    (h : ¬(leadsWith pat (c :: rest) = true ∧ pat ≠ [])) :
    replaceAll pat val (c :: rest) = c :: replaceAll pat val rest := by
  rw [replaceAll, replACore_zero, if_neg h]; rfl

theorem splitCore_nil (pat : List Char) (k : Nat) : splitCore pat k [] = [[]] := by
  cases k <;> rfl

theorem splitCore_succ (pat : List Char) (c : Char) (rest : List Char) (k : Nat) :
    splitCore pat (k + 1) (c :: rest) = splitCore pat k rest := rfl

theorem splitCore_zero (pat : List Char) (c : Char) (rest : List Char) :
    splitCore pat 0 (c :: rest) =
      if leadsWith pat (c :: rest) = true ∧ pat ≠ [] then
        [] :: splitCore pat (pat.length - 1) rest
      else
        match splitCore pat 0 rest with
        | [] => [[c]]
        | h :: t => (c :: h) :: t := rfl

theorem splitCore_eq_drop (pat : List Char) :
    ∀ (s : List Char) (k : Nat), splitCore pat k s = splitSub pat (s.drop k) := by
  intro s
  induction s with
  | nil => intro k; simp [splitCore_nil, splitSub]
  | cons c rest ih =>
    intro k
    cases k with
    | zero => rfl
    | succ j => rw [splitCore_succ, ih j, List.drop_succ_cons]

theorem splitSub_ne_nil (pat : List Char) : ∀ s, splitSub pat s ≠ [] := by
  intro s
  cases s with
  | nil => simp [splitSub, splitCore_nil]
  | cons c rest =>
    rw [splitSub, splitCore_zero]
    split
    · simp
    · cases splitCore pat 0 rest <;> simp

theorem splitSub_head_pre (pat : List Char) :
    ∀ s h t, splitSub pat s = h :: t → ∃ u, s = h ++ u := by
  intro s
  induction s with
  | nil =>
    intro h t e
    have e' : [[]] = h :: t := by simpa [splitSub, splitCore_nil] using e.symm
    have : ([] : List Char) = h := (List.cons.injEq _ _ _ _).mp e' |>.1
    exact ⟨[], by simp [← this]⟩
  | cons c rest ih =>
    intro h t e
    rw [splitSub, splitCore_zero] at e
    split at e
    · have : ([] : List Char) = h := (List.cons.injEq _ _ _ _).mp e |>.1
      exact ⟨c :: rest, by simp [← this]⟩
    · cases hh : splitCore pat 0 rest with
      | nil => exact absurd hh (splitSub_ne_nil pat rest)
      | cons h' t' =>
        rw [hh] at e
        have e1 : c :: h' = h := (List.cons.injEq _ _ _ _).mp e |>.1
        obtain ⟨u, hu⟩ := ih h' t' hh
        exact ⟨u, by rw [← e1, hu]; rfl⟩

theorem joinWith_cons_ne (sep x : List Char) {l : List (List Char)} (h : l ≠ []) :
    joinWith sep (x :: l) = x ++ sep ++ joinWith sep l := by
  cases l with
  | nil => exact absurd rfl h
  | cons y t => rfl

theorem replaceAll_joinWith_aux (pat val : List Char) :
    ∀ (N : Nat) (s : List Char), s.length ≤ N →
      replaceAll pat val s = joinWith val (splitSub pat s) := by
  intro N
  induction N with
  | zero =>
    intro s hs
    have : s = [] := List.length_eq_zero.mp (Nat.le_zero.mp hs)
    subst this
    simp [replaceAll_nil, splitSub, splitCore_nil, joinWith]
  | succ n ih =>
    intro s hs
    cases s with
    | nil => simp [replaceAll_nil, splitSub, splitCore_nil, joinWith]
    | cons c rest =>
      have hrest : rest.length ≤ n := by simpa using hs
      by_cases hg : leadsWith pat (c :: rest) = true ∧ pat ≠ []
      · obtain ⟨hl, hp⟩ := hg
        have hlen : (rest.drop (pat.length - 1)).length ≤ n := by
          simp [List.length_drop]; omega
        have hsplit : splitSub pat (c :: rest) =
            [] :: splitSub pat (rest.drop (pat.length - 1)) := by
          rw [splitSub, splitCore_zero, if_pos ⟨hl, hp⟩, splitCore_eq_drop]
        rw [replaceAll_pos val hl hp, hsplit,
          joinWith_cons_ne val [] (splitSub_ne_nil pat _), ih _ hlen]
        simp
      · have hsplit := splitCore_zero pat c rest
        rw [if_neg hg] at hsplit
        cases hh : splitCore pat 0 rest with
        | nil => exact absurd hh (splitSub_ne_nil pat rest)
        | cons h t =>
          rw [hh] at hsplit
          have hsplit' : splitSub pat (c :: rest) = (c :: h) :: t := hsplit
          have ihr : replaceAll pat val rest = joinWith val (h :: t) := by
            rw [ih rest hrest]; rw [splitSub, hh]
          rw [replaceAll_neg val hg, hsplit', ihr]
          cases t with
          | nil => simp [joinWith]
          | cons y t' => simp [joinWith]

theorem replaceAll_joinWith (pat val s : List Char) :
    replaceAll pat val s = joinWith val (splitSub pat s) :=
  replaceAll_joinWith_aux pat val s.length s le_rfl

theorem joinWith_splitSub_aux (pat : List Char) :
    ∀ (N : Nat) (s : List Char), s.length ≤ N →
      joinWith pat (splitSub pat s) = s := by
  intro N
  induction N with
  | zero =>
    intro s hs
    have : s = [] := List.length_eq_zero.mp (Nat.le_zero.mp hs)
    subst this
    simp [splitSub, splitCore_nil, joinWith]
  | succ n ih =>
    intro s hs
    cases s with
    | nil => simp [splitSub, splitCore_nil, joinWith]
    | cons c rest =>
      have hrest : rest.length ≤ n := by simpa using hs
      by_cases hg : leadsWith pat (c :: rest) = true ∧ pat ≠ []
      · obtain ⟨hl, hp⟩ := hg
        obtain ⟨t, ht⟩ := (leadsWith_iff pat (c :: rest)).mp hl
        have hdrop : rest.drop (pat.length - 1) = t := by
          cases pat with
          | nil => exact absurd rfl hp
          | cons p ps =>
            have h1 : c :: rest = p :: (ps ++ t) := by simpa using ht
            have h2 : rest = ps ++ t := ((List.cons.injEq _ _ _ _).mp h1).2
            simp [h2, drop_append_self]
        have hlen : (rest.drop (pat.length - 1)).length ≤ n := by
          simp [List.length_drop]; omega
        have hsplit : splitSub pat (c :: rest) =
            [] :: splitSub pat (rest.drop (pat.length - 1)) := by
          rw [splitSub, splitCore_zero, if_pos ⟨hl, hp⟩, splitCore_eq_drop]
        rw [hsplit, joinWith_cons_ne pat [] (splitSub_ne_nil pat _), ih _ hlen, hdrop]
        simpa using ht.symm
      · have hsplit := splitCore_zero pat c rest
        rw [if_neg hg] at hsplit
        cases hh : splitCore pat 0 rest with
        | nil => exact absurd hh (splitSub_ne_nil pat rest)
        | cons h t =>
          rw [hh] at hsplit
          have hsplit' : splitSub pat (c :: rest) = (c :: h) :: t := hsplit
          have ihr : joinWith pat (h :: t) = rest := by
            rw [← ih rest hrest]; rw [splitSub, hh]
          rw [hsplit']
          cases t with
          | nil =>
            have : h = rest := by simpa [joinWith] using ihr
            simp [joinWith, this]
          | cons y t' =>
            have : h ++ pat ++ joinWith pat (y :: t') = rest := by
              simpa [joinWith] using ihr
            simp [joinWith, ← this]

theorem joinWith_splitSub (pat s : List Char) :
    joinWith pat (splitSub pat s) = s :=
  joinWith_splitSub_aux pat s.length s le_rfl

theorem splitSub_free_aux (pat : List Char) (hp : pat ≠ []) :
    ∀ (N : Nat) (s : List Char), s.length ≤ N →
      ∀ c ∈ splitSub pat s, containsSub pat c = false := by
  intro N
  induction N with
  | zero =>
    intro s hs
    have : s = [] := List.length_eq_zero.mp (Nat.le_zero.mp hs)
    subst this
    intro c hc
    have : c = [] := by simpa [splitSub, splitCore_nil] using hc
    subst this
    simpa [containsSub] using hp
  | succ n ih =>
    intro s hs
    cases s with
    | nil =>
      intro c hc
      have : c = [] := by simpa [splitSub, splitCore_nil] using hc
      subst this
      simpa [containsSub] using hp
    | cons c rest =>
      have hrest : rest.length ≤ n := by simpa using hs
      by_cases hg : leadsWith pat (c :: rest) = true ∧ pat ≠ []
      · have hlen : (rest.drop (pat.length - 1)).length ≤ n := by
          simp [List.length_drop]; omega
        have hsplit : splitSub pat (c :: rest) =
            [] :: splitSub pat (rest.drop (pat.length - 1)) := by
          rw [splitSub, splitCore_zero, if_pos hg, splitCore_eq_drop]
        intro x hx
        rw [hsplit] at hx
        rcases List.mem_cons.mp hx with hx | hx
        · subst hx; simpa [containsSub] using hp
        · exact ih _ hlen x hx
      · have hsplit := splitCore_zero pat c rest
        rw [if_neg hg] at hsplit
        cases hh : splitCore pat 0 rest with
        | nil => exact absurd hh (splitSub_ne_nil pat rest)
        | cons h t =>
          rw [hh] at hsplit
          have hsplit' : splitSub pat (c :: rest) = (c :: h) :: t := hsplit
          have hmem : h ∈ splitSub pat rest := by rw [splitSub, hh]; exact List.mem_cons_self _ _
          have hfree : containsSub pat h = false := ih rest hrest h hmem
          intro x hx
          rw [hsplit'] at hx
          rcases List.mem_cons.mp hx with hx | hx
          · subst hx
            have hnl : leadsWith pat (c :: h) = false := by
              cases hlw : leadsWith pat (c :: h) with
              | false => rfl
              | true =>
                obtain ⟨w, hw⟩ := (leadsWith_iff pat (c :: h)).mp hlw
                obtain ⟨u, hu⟩ := splitSub_head_pre pat rest h t (by rw [splitSub, hh])
                have : leadsWith pat (c :: rest) = true := by
                  refine (leadsWith_iff pat (c :: rest)).mpr ⟨w ++ u, ?_⟩
                  rw [hu]
                  have : c :: (h ++ u) = (c :: h) ++ u := rfl
                  rw [this, hw, List.append_assoc]
                exact absurd ⟨this, hp⟩ hg
            simp [containsSub, hnl, hfree]
          · have : x ∈ splitSub pat rest := by rw [splitSub, hh]; exact List.mem_cons_of_mem _ hx
            exact ih rest hrest x this

theorem splitSub_all_free (pat s : List Char) (hp : pat ≠ []) :
    (splitSub pat s).all (fun c => !containsSub pat c) = true := by
  rw [List.all_eq_true]
  intro c hc
  have := splitSub_free_aux pat hp s.length s le_rfl c hc
  simp [this]

theorem writeLines_eq_join (render : List Char → List Char) :
    ∀ tmpl, writeLines render tmpl = List.flatten (tmpl.map render) := by
  intro tmpl
  induction tmpl with
  | nil => rfl
  | cons l ls ih => simp [writeLines, ih]

theorem writeBlocks_eq_join (entries : Nat → OptionEntry)
    (entryTemplate : Nat → List (List Char)) :
    ∀ l, writeBlocks entries entryTemplate l =
      List.flatten (l.map fun i => entryBlock (entries i) (entryTemplate i)) := by
  intro l
  induction l with
  | nil => rfl
  | cons i is ih => simp [writeBlocks, ih]

theorem writeBlocks_congr (entries : Nat → OptionEntry)
    (et1 et2 : Nat → List (List Char)) :
    ∀ l, (∀ i ∈ l, et1 i = et2 i) →
      writeBlocks entries et1 l = writeBlocks entries et2 l := by
  intro l
  induction l with
  | nil => intro _; rfl
  | cons i is ih =>
    intro h
    have hi : et1 i = et2 i := h i (List.mem_cons_self _ _)
    have hrest := ih fun j hj => h j (List.mem_cons_of_mem _ hj)
    simp [writeBlocks, hi, hrest]

theorem run_parse_none (inp : RunInput) (h : pyInt inp.my_range = none) :
    run inp =
      RunResult.inputError (sectionOut inp.sectionname inp.hyphname inp.sectionTemplate)
        false := by
  unfold run
  rw [h]

theorem run_parse_some (inp : RunInput) (n : Int) (h : pyInt inp.my_range = some n) :
    run inp =
      RunResult.ok
        (sectionOut inp.sectionname inp.hyphname inp.sectionTemplate ++
          writeBlocks inp.entries inp.entryTemplate (pyRange n) ++ (line1 ++ line2))
        true := by
  unfold run
  rw [h]

theorem argSubstep_eq (optarg line : List Char) :
    argSubstep optarg line = replaceAll OPT_ARG (argValue optarg) line := by
  unfold argSubstep argValue
  by_cases h : optarg = [] <;> simp [h]

/-- C1 (counterexample): the claim as stated is false.  With the
substitution values `"SECTION_HYPHENED_"` and `"X"`, neither of which
contains any recognized placeholder token, and the template line
`"SECTION_NAMENAME"`, the code's rendering produces `"X"`, while replacing
each token occurrence of the line by exactly one substitution and leaving
all non-token text byte-identical (the spec-side `simulSubstSpec`) would
produce `"SECTION_HYPHENED_NAME"`: the value substituted for
`SECTION_NAME` completes a `SECTION_HYPHENED_NAME` occurrence together
with the adjacent non-token text `"NAME"`, and the second `replace` call
then consumes that non-token text. -/
theorem C1_counterexample_simultaneous :
    noTok "SECTION_HYPHENED_".data = true ∧ noTok "X".data = true ∧
    renderSectionLine "SECTION_HYPHENED_".data "X".data "SECTION_NAMENAME".data = "X".data ∧
    simulSubstSpec
      [(SECTION_NAME, "SECTION_HYPHENED_".data), (SECTION_HYPHENED_NAME, "X".data)]
      "SECTION_NAMENAME".data = "SECTION_HYPHENED_NAME".data ∧
    renderSectionLine "SECTION_HYPHENED_".data "X".data "SECTION_NAMENAME".data ≠
      simulSubstSpec
        [(SECTION_NAME, "SECTION_HYPHENED_".data), (SECTION_HYPHENED_NAME, "X".data)]
        "SECTION_NAMENAME".data :=
  ⟨by decide, by decide, by decide, by decide, by decide⟩

/-- C1 (amended): rendering applies the token substitutions sequentially
in the code's fixed order; each single-token step replaces every leftmost
non-overlapping occurrence of its token in that step's input line by
exactly one copy of its substitution value (`joinWith val (splitSub pat line)`),
reconstructing the line when the token itself is interleaved back and
leaving every inter-occurrence chunk free of the token; the lines are
emitted in original order, and no token contains a newline, so line
terminators are part of the preserved non-token text of each step. -/
theorem C1_sequential_substitution :
    ∀ (sectionname hyphname line : List Char) (e : OptionEntry) (tmpl : List (List Char)),
      sectionOut sectionname hyphname tmpl =
        List.flatten (tmpl.map (renderSectionLine sectionname hyphname)) ∧
      renderSectionLine sectionname hyphname line =
        joinWith hyphname (splitSub SECTION_HYPHENED_NAME
          (joinWith sectionname (splitSub SECTION_NAME line))) ∧
      joinWith SECTION_NAME (splitSub SECTION_NAME line) = line ∧
      (splitSub SECTION_NAME line).all (fun c => !containsSub SECTION_NAME c) = true ∧
      (∀ s, joinWith SECTION_HYPHENED_NAME (splitSub SECTION_HYPHENED_NAME s) = s) ∧
      (∀ s, (splitSub SECTION_HYPHENED_NAME s).all
        (fun c => !containsSub SECTION_HYPHENED_NAME c) = true) ∧
      entryBlock e tmpl = List.flatten (tmpl.map (renderEntryLine e)) ∧
      renderEntryLine e line =
        joinWith e.optname (splitSub OPT_NAME
          (joinWith e.optdesc (splitSub OPT_DESC
            (joinWith (argValue e.optarg) (splitSub OPT_ARG
              (joinWith e.optformat (splitSub OPT_FORMAT line))))))) ∧
      joinWith OPT_FORMAT (splitSub OPT_FORMAT line) = line ∧
      (∀ s, joinWith OPT_ARG (splitSub OPT_ARG s) = s) ∧
      (∀ s, joinWith OPT_DESC (splitSub OPT_DESC s) = s) ∧
      (∀ s, joinWith OPT_NAME (splitSub OPT_NAME s) = s) ∧
      SECTION_NAME.contains '\n' = false ∧
      SECTION_HYPHENED_NAME.contains '\n' = false ∧
      OPT_FORMAT.contains '\n' = false ∧ OPT_ARG.contains '\n' = false ∧
      OPT_DESC.contains '\n' = false ∧ OPT_NAME.contains '\n' = false := by
  intro sectionname hyphname line e tmpl
  refine ⟨writeLines_eq_join _ _, ?_, joinWith_splitSub _ _,
    splitSub_all_free _ _ (by decide),
    fun s => joinWith_splitSub _ _,
    fun s => splitSub_all_free _ _ (by decide),
    writeLines_eq_join _ _, ?_, joinWith_splitSub _ _,
    fun s => joinWith_splitSub _ _, fun s => joinWith_splitSub _ _,
    fun s => joinWith_splitSub _ _,
    by decide, by decide, by decide, by decide, by decide, by decide⟩
  · simp only [renderSectionLine, replaceAll_joinWith]
  · simp only [renderEntryLine, argSubstep_eq, replaceAll_joinWith]

/-- C2: for every entered count that parses to `n ≥ 0`, the appended
output is the rendered section template, then exactly `n` rendered option
blocks in iteration order, then the two fixed closing strings; for
`n = 0` the section output is followed immediately by the closing
strings. -/
theorem C2_output_structure :
    ∀ (inp : RunInput) (n : Int), pyInt inp.my_range = some n → 0 ≤ n →
      run inp =
        RunResult.ok
          (sectionOut inp.sectionname inp.hyphname inp.sectionTemplate ++
            writeBlocks inp.entries inp.entryTemplate (pyRange n) ++ (line1 ++ line2))
          true ∧
      writeBlocks inp.entries inp.entryTemplate (pyRange n) =
        List.flatten ((pyRange n).map fun i => entryBlock (inp.entries i) (inp.entryTemplate i)) ∧
      ((pyRange n).length : Int) = n ∧
      (n = 0 →
        run inp =
          RunResult.ok
            (sectionOut inp.sectionname inp.hyphname inp.sectionTemplate ++ (line1 ++ line2))
            true) := by
  intro inp n h hn
  refine ⟨run_parse_some inp n h, writeBlocks_eq_join _ _ _, ?_, ?_⟩
  · simp [pyRange]; omega
  · intro hz
    subst hz
    rw [run_parse_some inp 0 h]
    simp [pyRange, writeBlocks]

/-- C2 (witness): the structure theorem applied at a concrete run with
count `"2"` and at a concrete run with count `"0"`. -/
theorem C2_output_structure_witness :
    pyInt inpC2.my_range = some 2 ∧ (0 : Int) ≤ 2 ∧
    (run inpC2 =
        RunResult.ok
          (sectionOut inpC2.sectionname inpC2.hyphname inpC2.sectionTemplate ++
            writeBlocks inpC2.entries inpC2.entryTemplate (pyRange 2) ++ (line1 ++ line2))
          true ∧
      writeBlocks inpC2.entries inpC2.entryTemplate (pyRange 2) =
        List.flatten ((pyRange 2).map fun i => entryBlock (inpC2.entries i) (inpC2.entryTemplate i)) ∧
      ((pyRange 2).length : Int) = 2 ∧
      ((2 : Int) = 0 →
        run inpC2 =
          RunResult.ok
            (sectionOut inpC2.sectionname inpC2.hyphname inpC2.sectionTemplate ++ (line1 ++ line2))
            true)) ∧
    pyInt inpC20.my_range = some 0 ∧ (0 : Int) ≤ 0 ∧
    (run inpC20 =
        RunResult.ok
          (sectionOut inpC20.sectionname inpC20.hyphname inpC20.sectionTemplate ++
            writeBlocks inpC20.entries inpC20.entryTemplate (pyRange 0) ++ (line1 ++ line2))
          true ∧
      writeBlocks inpC20.entries inpC20.entryTemplate (pyRange 0) =
        List.flatten ((pyRange 0).map fun i => entryBlock (inpC20.entries i) (inpC20.entryTemplate i)) ∧
      ((pyRange 0).length : Int) = 0 ∧
      ((0 : Int) = 0 →
        run inpC20 =
          RunResult.ok
            (sectionOut inpC20.sectionname inpC20.hyphname inpC20.sectionTemplate ++ (line1 ++ line2))
            true)) :=
  ⟨by decide, by decide, C2_output_structure inpC2 2 (by decide) (by decide),
   by decide, by decide, C2_output_structure inpC20 0 (by decide) (by decide)⟩

/-- C3: the `OPT_ARG` replacement substitutes, for every occurrence of
`OPT_ARG` in the line, the empty string when the operator-supplied
argument is empty and `<replaceable>` + argument + `</replaceable>`
otherwise; interleaving the token back reconstructs the line, and no
inter-occurrence chunk contains the token. -/
theorem C3_optarg_branch :
    ∀ (optarg s : List Char),
      argSubstep optarg s =
        joinWith
          (if optarg = [] then []
           else "<replaceable>".data ++ optarg ++ "</replaceable>".data)
          (splitSub OPT_ARG s) ∧
      joinWith OPT_ARG (splitSub OPT_ARG s) = s ∧
      (splitSub OPT_ARG s).all (fun c => !containsSub OPT_ARG c) = true := by
  intro optarg s
  refine ⟨?_, joinWith_splitSub _ _, splitSub_all_free _ _ (by decide)⟩
  rw [argSubstep_eq, replaceAll_joinWith]
  rfl

/-- C4: when the count text does not parse as an integer, the run
terminates with an input error; the rendered section template has already
been appended, and the outcome does not depend on any option-entry input
or entry-template content (no option prompt is reached). -/
theorem C4_nonint_count_terminates :
    ∀ inp : RunInput, pyInt inp.my_range = none →
      run inp =
        RunResult.inputError
          (sectionOut inp.sectionname inp.hyphname inp.sectionTemplate) false ∧
      ∀ (es : Nat → OptionEntry) (et : Nat → List (List Char)),
        run { inp with entries := es, entryTemplate := et } = run inp := by
  intro inp h
  refine ⟨run_parse_none inp h, ?_⟩
  intro es et
  rw [run_parse_none inp h, run_parse_none { inp with entries := es, entryTemplate := et } h]

/-- C4 (witness): the theorem applied at a concrete run whose count text
is `"abc"`. -/
theorem C4_nonint_count_terminates_witness :
    pyInt inpC4.my_range = none ∧
    (run inpC4 =
        RunResult.inputError
          (sectionOut inpC4.sectionname inpC4.hyphname inpC4.sectionTemplate) false ∧
      ∀ (es : Nat → OptionEntry) (et : Nat → List (List Char)),
        run { inpC4 with entries := es, entryTemplate := et } = run inpC4) :=
  ⟨by decide, C4_nonint_count_terminates inpC4 (by decide)⟩

/-- C5 (counterexample): the claim as stated is false.  On the exit path
where parsing the option count fails (count text `"abc"`), the run ends
in the input-error outcome and the program has not executed `o.close()`:
the close call sits after the option loop and is skipped when the
exception propagates. -/
theorem C5_counterexample_not_closed_on_error :
    run inpC5cex = RunResult.inputError [] false ∧
    closedOf (run inpC5cex) = false :=
  ⟨by decide, by decide⟩

/-- C5 (amended): the output handle is closed by the program exactly on
the normal-completion path: every run whose count text parses executes
`o.close()`, and every run whose count text fails to parse terminates
without the program closing the handle. -/
theorem C5_close_paths :
    (∀ (inp : RunInput) (n : Int), pyInt inp.my_range = some n →
      closedOf (run inp) = true) ∧
    (∀ inp : RunInput, pyInt inp.my_range = none → closedOf (run inp) = false) := by
  constructor
  · intro inp n h
    rw [run_parse_some inp n h]
    rfl
  · intro inp h
    rw [run_parse_none inp h]
    rfl

/-- C5 (witness): the amended theorem applied at a run that completes
normally and at a run whose count text is non-numeric. -/
theorem C5_close_paths_witness :
    closedOf (run inpC5ok) = true ∧ closedOf (run inpC5err) = false :=
  ⟨C5_close_paths.1 inpC5ok 1 (by decide), C5_close_paths.2 inpC5err (by decide)⟩

/-- C6 (counterexample): the claim as stated is false.  On a run with an
empty section template and count `"0"` the appended bytes are exactly the
two closing strings written back to back; since neither string contains a
newline and no newline is written between them, the two tags end up on a
single output line, so neither closing string is emitted as a line of its
own. -/
theorem C6_counterexample_closing_single_line :
    run inpC6cex = RunResult.ok (line1 ++ line2) true ∧
    linesOf (line1 ++ line2) = ["    </variablelist>   </refsect1>".data] ∧
    linesOf (line1 ++ line2) ≠ [line1, line2] ∧
    line1 ∉ linesOf (line1 ++ line2) ∧
    line2 ∉ linesOf (line1 ++ line2) :=
  ⟨by decide, by decide, by decide, by decide, by decide⟩

/-- C6 (amended): after the option iterations the program appends exactly
the two fixed literal closing strings `"    </variablelist>"` and
`"   </refsect1>"`, in that order, written consecutively without line
terminators (so they appear on one output line rather than as two
lines). -/
theorem C6_closing_strings_appended :
    ∀ (inp : RunInput) (n : Int), pyInt inp.my_range = some n →
      appendedOf (run inp) =
        (sectionOut inp.sectionname inp.hyphname inp.sectionTemplate ++
          writeBlocks inp.entries inp.entryTemplate (pyRange n)) ++ (line1 ++ line2) ∧
      line1 = "    </variablelist>".data ∧
      line2 = "   </refsect1>".data ∧
      (line1 ++ line2).all (fun c => !(c == '\n')) = true := by
  intro inp n h
  refine ⟨?_, rfl, rfl, by decide⟩
  rw [run_parse_some inp n h]
  simp [appendedOf, List.append_assoc]

/-- C6 (witness): the amended theorem applied at a concrete run with one
option block. -/
theorem C6_closing_strings_appended_witness :
    pyInt inpC6w.my_range = some 1 ∧
    (appendedOf (run inpC6w) =
        (sectionOut inpC6w.sectionname inpC6w.hyphname inpC6w.sectionTemplate ++
          writeBlocks inpC6w.entries inpC6w.entryTemplate (pyRange 1)) ++ (line1 ++ line2) ∧
      line1 = "    </variablelist>".data ∧
      line2 = "   </refsect1>".data ∧
      (line1 ++ line2).all (fun c => !(c == '\n')) = true) :=
  ⟨by decide, C6_closing_strings_appended inpC6w 1 (by decide)⟩

/-- C7: the output file is opened in append mode, so after any run
against any prior file content, the prior bytes are unchanged and all
newly rendered content lies after them. -/
theorem C7_append_mode :
    ∀ (prior : List Char) (inp : RunInput),
      fileAfter prior inp = prior ++ appendedOf (run inp) ∧
      (fileAfter prior inp).take prior.length = prior ∧
      (fileAfter prior inp).drop prior.length = appendedOf (run inp) := by
  intro prior inp
  refine ⟨rfl, ?_, ?_⟩
  · rw [fileAfter]
    exact take_append_self _ _
  · rw [fileAfter]
    exact drop_append_self _ _

/-- C8: the block rendered for iteration `i` is produced from the entry
template's contents as read at iteration `i` (the file is reopened each
time, modelled by the per-iteration contents `entryTemplate i`), and the
run's output depends on exactly the per-iteration template contents of
the iterations that execute. -/
theorem C8_per_iteration_template :
    ∀ (inp : RunInput) (n : Int), pyInt inp.my_range = some n →
      run inp =
        RunResult.ok
          (sectionOut inp.sectionname inp.hyphname inp.sectionTemplate ++
            List.flatten
              ((pyRange n).map fun i => entryBlock (inp.entries i) (inp.entryTemplate i)) ++
            (line1 ++ line2))
          true ∧
      ∀ et1 et2 : Nat → List (List Char),
        (∀ i, i < n.toNat → et1 i = et2 i) →
        run { inp with entryTemplate := et1 } = run { inp with entryTemplate := et2 } := by
  intro inp n h
  constructor
  · rw [run_parse_some inp n h, writeBlocks_eq_join]
  · intro et1 et2 hagree
    rw [run_parse_some { inp with entryTemplate := et1 } n h,
      run_parse_some { inp with entryTemplate := et2 } n h]
    show RunResult.ok
        (sectionOut inp.sectionname inp.hyphname inp.sectionTemplate ++
          writeBlocks inp.entries et1 (pyRange n) ++ (line1 ++ line2)) true =
      RunResult.ok
        (sectionOut inp.sectionname inp.hyphname inp.sectionTemplate ++
          writeBlocks inp.entries et2 (pyRange n) ++ (line1 ++ line2)) true
    rw [writeBlocks_congr inp.entries et1 et2 (pyRange n)
      fun i hi => hagree i (by simpa [pyRange] using hi)]

/-- C8 (witness): the theorem applied at a concrete run whose entry
template differs between the two iterations. -/
theorem C8_per_iteration_template_witness :
    pyInt inpC8.my_range = some 2 ∧
    (run inpC8 =
        RunResult.ok
          (sectionOut inpC8.sectionname inpC8.hyphname inpC8.sectionTemplate ++
            List.flatten
              ((pyRange 2).map fun i => entryBlock (inpC8.entries i) (inpC8.entryTemplate i)) ++
            (line1 ++ line2))
          true ∧
      ∀ et1 et2 : Nat → List (List Char),
        (∀ i, i < (2 : Int).toNat → et1 i = et2 i) →
        run { inpC8 with entryTemplate := et1 } = run { inpC8 with entryTemplate := et2 }) :=
  ⟨by decide, C8_per_iteration_template inpC8 2 (by decide)⟩

/-- C9: a count text parsing to a negative integer raises no error: the
option loop runs zero times, so the run appends the rendered section
template followed by the two closing strings — the same appended output
as a count of `0`. -/
theorem C9_negative_count :
    ∀ (inp : RunInput) (n : Int), pyInt inp.my_range = some n → n < 0 →
      run inp =
        RunResult.ok
          (sectionOut inp.sectionname inp.hyphname inp.sectionTemplate ++ (line1 ++ line2))
          true ∧
      run inp = run { inp with my_range := "0".data } := by
  intro inp n h hneg
  have hz : pyRange n = [] := by
    have hn : n.toNat = 0 := by omega
    simp [pyRange, hn]
  have h1 : run inp =
      RunResult.ok
        (sectionOut inp.sectionname inp.hyphname inp.sectionTemplate ++ (line1 ++ line2))
        true := by
    rw [run_parse_some inp n h, hz]
    simp [writeBlocks]
  refine ⟨h1, ?_⟩
  have h0 : pyInt ({ inp with my_range := "0".data } : RunInput).my_range = some 0 := by
    show pyInt "0".data = some 0
    decide
  rw [h1, run_parse_some { inp with my_range := "0".data } 0 h0]
  show RunResult.ok
      (sectionOut inp.sectionname inp.hyphname inp.sectionTemplate ++ (line1 ++ line2)) true =
    RunResult.ok
      (sectionOut inp.sectionname inp.hyphname inp.sectionTemplate ++
        writeBlocks inp.entries inp.entryTemplate (pyRange 0) ++ (line1 ++ line2)) true
  simp [pyRange, writeBlocks]

/-- C9 (witness): the theorem applied at a concrete run whose count text
is `"-3"`. -/
theorem C9_negative_count_witness :
    pyInt inpC9.my_range = some (-3) ∧ (-3 : Int) < 0 ∧
    (run inpC9 =
        RunResult.ok
          (sectionOut inpC9.sectionname inpC9.hyphname inpC9.sectionTemplate ++ (line1 ++ line2))
          true ∧
      run inpC9 = run { inpC9 with my_range := "0".data }) :=
  ⟨by decide, by decide, C9_negative_count inpC9 (-3) (by decide) (by decide)⟩

/-- C10: substitution is sequential in a fixed order, not simultaneous:
a hyphenated-name value equal to `SECTION_NAME` survives (so
`SECTION_NAME` is replaced first), while a section-name value containing
`SECTION_HYPHENED_NAME`, a format value containing `OPT_ARG`, an argument
value containing `OPT_DESC` and a description value containing `OPT_NAME`
are each replaced again by the later step that follows them. -/
theorem C10_sequential_order_cascade :
    renderSectionLine "SECTION_HYPHENED_NAME".data "H".data "SECTION_NAME".data = "H".data ∧
    renderSectionLine "s".data "SECTION_NAME".data "SECTION_HYPHENED_NAME".data =
      "SECTION_NAME".data ∧
    renderEntryLine ⟨"xOPT_DESCy".data, [], "D".data, "N".data⟩ "OPT_FORMAT".data =
      "xDy".data ∧
    renderEntryLine ⟨"OPT_ARG".data, "w".data, "D".data, "N".data⟩ "OPT_FORMAT".data =
      "<replaceable>w</replaceable>".data ∧
    renderEntryLine ⟨"f".data, "OPT_DESC".data, "D".data, "N".data⟩ "OPT_ARG".data =
      "<replaceable>D</replaceable>".data ∧
    renderEntryLine ⟨"f".data, "z".data, "OPT_NAME".data, "Z".data⟩ "OPT_DESC".data =
      "Z".data :=
  ⟨by decide, by decide, by decide, by decide, by decide, by decide⟩
